import Mathlib

/-!
Verification development for the CategoricalHMM EM core
(`ssm_jax/hmm/models/categorical_hmm.py`).

The code is shallowly embedded over exact rationals: jnp arrays become
(nested) lists of `ℚ`, integer class observations become `ℕ`, and the
stochastic / smoothing collaborators that live outside the excerpt
(`BaseHMM`, `hmm_smoother`, `compute_transition_probs`, `jax.random`) are
modelled from the specification where noted.  Likelihood computations are
carried in probability space rather than log space: the source's log-space
arithmetic is a numerical-stability measure that is irrelevant over exact
rationals, and the marginal log-likelihood itself is held abstractly as the
marginal likelihood (its exponential), which no verified property reads.
-/

namespace CategoricalHMMSpec

/-- A categorical hidden Markov model, as held by `CategoricalHMM`:
the initial state distribution, the transition matrix and the rank-3
emission-probability tensor (`num_states × num_emissions × num_classes`).
The `Parameter` wrapper of the source only attaches a bijector used by
optimizers outside this core, so parameters are embedded as their values. -/
structure CategoricalHMM where
  initial_probs : List ℚ
  transition_matrix : List (List ℚ)
  emission_probs : List (List (List ℚ))
deriving Repr, DecidableEq

/-- Modelled from the spec: `num_states` is provided by the `BaseHMM` base
class (not part of the excerpt); per the spec it is derived from the shape
of the initial distribution. -/
def num_states (m : CategoricalHMM) : ℕ := m.initial_probs.length

/-- `num_emissions`: second axis of the emission tensor (`shape[1]`). -/
def num_emissions (m : CategoricalHMM) : ℕ := (m.emission_probs.headD []).length

/-- `num_classes`: third axis of the emission tensor (`shape[2]`). -/
def num_classes (m : CategoricalHMM) : ℕ := ((m.emission_probs.headD []).headD []).length

/-- Modelled from the spec: `num_obs` is read off the `BaseHMM` base class,
which is not part of the excerpt; the spec's shape contract (§3, §6) makes
the middle axis of `sum_x` the number of emission channels, so `num_obs` is
the emission-channel count `num_emissions`. -/
def num_obs (m : CategoricalHMM) : ℕ := num_emissions m

/-- The `CategoricalHMMSuffStats` chex dataclass.  The source reuses one
dataclass both for actual statistics (arrays) and for the event-shape
contract (shape tuples), so the embedding is polymorphic in the four field
types. -/
structure CategoricalHMMSuffStats (A B C D : Type) where
  marginal_loglik : A
  initial_probs : B
  trans_probs : C
  sum_x : D
deriving Repr, DecidableEq

/-- Concrete per-sequence sufficient statistics. -/
abbrev CatSuffStats :=
  CategoricalHMMSuffStats ℚ (List ℚ) (List (List ℚ)) (List (List (List ℚ)))

/-- Event-shape record: each field holds a shape tuple. -/
abbrev CatSuffStatsShape :=
  CategoricalHMMSuffStats (List ℕ) (List ℕ) (List ℕ) (List ℕ)

/-- `suff_stats_event_shape`: the per-field event shapes, exactly as built
in the source (`marginal_loglik` a scalar, `initial_probs` of length
`num_states`, `trans_probs` of `num_states × num_states`, `sum_x` of
`num_states × num_obs × num_classes`). -/
def suff_stats_event_shape (m : CategoricalHMM) : CatSuffStatsShape where
  marginal_loglik := []
  initial_probs := [num_states m]
  trans_probs := [num_states m, num_states m]
  sum_x := [num_states m, num_obs m, num_classes m]

/-- The mode of a `tfd.Dirichlet` with concentration vector `α`, as the
library computes it: componentwise `(α i - 1) / (Σ α - K)` over `K`
outcomes.  Over a rank-n concentration tensor the distribution applies
along the last axis, which the callers below map over explicitly. -/
def dirichletMode (a : List ℚ) : List ℚ :=
  a.map (fun x => (x - 1) / (a.sum - (a.length : ℚ)))

/-- Elementwise sum of two statistics vectors (one leaf of `tree_map`). -/
def vadd (u v : List ℚ) : List ℚ := List.zipWith (· + ·) u v

/-- Elementwise sum of two statistics matrices. -/
def madd (u v : List (List ℚ)) : List (List ℚ) := List.zipWith vadd u v

/-- Elementwise sum of two rank-3 statistics tensors. -/
def tadd (u v : List (List (List ℚ))) : List (List (List ℚ)) := List.zipWith madd u v

/-- Elementwise sum of two per-sequence statistics records. -/
def addStats (s t : CatSuffStats) : CatSuffStats where
  marginal_loglik := s.marginal_loglik + t.marginal_loglik
  initial_probs := vadd s.initial_probs t.initial_probs
  trans_probs := madd s.trans_probs t.trans_probs
  sum_x := tadd s.sum_x t.sum_x

/-- `tree_map(partial(jnp.sum, axis=0), batch_posteriors)`: the per-field
elementwise sum of the batch of statistics records over the batch axis. -/
def sumStatsBatch : List CatSuffStats → CatSuffStats
  | [] => { marginal_loglik := 0, initial_probs := [], trans_probs := [], sum_x := [] }
  | s :: rest => rest.foldl addStats s

/-- The new initial distribution: `tfd.Dirichlet(1.0001 + stats.initial_probs).mode()`. -/
def updated_initial (stats : CatSuffStats) : List ℚ :=
  dirichletMode (stats.initial_probs.map (fun x => 1.0001 + x))

/-- The new transition matrix: `tfd.Dirichlet(1.0001 + stats.trans_probs).mode()`,
the Dirichlet applying along the last axis, i.e. row by row. -/
def updated_transition (stats : CatSuffStats) : List (List ℚ) :=
  stats.trans_probs.map (fun row => dirichletMode (row.map (fun x => 1.0001 + x)))

/-- The new emission tensor: `tfd.Dirichlet(1.1 + stats.sum_x).mode()`,
applied along the class axis for each (state, channel) pair. -/
def updated_emission (stats : List (List (List ℚ))) : List (List (List ℚ)) :=
  stats.map (fun st => st.map (fun row => dirichletMode (row.map (fun x => 1.1 + x))))

/-- `m_step`: sums the statistics across the batch and overwrites the three
parameters with the Dirichlet-posterior modes.  `batch_emissions` and the
`**kwargs` (here `kwargs`) appear in the signature but are never read. -/
def m_step (m : CategoricalHMM) (batch_emissions : List (List (List ℕ)))
    (kwargs : List ℚ) (batch_posteriors : List CatSuffStats) : CategoricalHMM :=
  let stats := sumStatsBatch batch_posteriors
  { initial_probs := updated_initial stats
  , transition_matrix := updated_transition stats
  , emission_probs := updated_emission stats.sum_x }

/-! ### The forward-backward smoother and the E-step

`hmm_smoother` and `compute_transition_probs` live in `ssm_jax.hmm.inference`
outside the excerpt, and `_conditional_logliks` in `BaseHMM`; they are
modelled from the spec (§4.3, §4.4), in probability space. -/

/-- One entry of a (possibly ragged) list matrix, with `0` out of range. -/
def entry (M : List (List ℚ)) (t i : ℕ) : ℚ := (M.getD t []).getD i 0

/-- Sum-normalization of a vector, returning the normalizer and the
normalized vector. -/
def normalizeVec (v : List ℚ) : ℚ × List ℚ := (v.sum, v.map (fun x => x / v.sum))

/-- Row-vector–matrix product `v A`, with the jnp output length (the column
count of `A`). -/
def vecMat (v : List ℚ) (A : List (List ℚ)) : List ℚ :=
  (List.range (A.headD []).length).map
    (fun j => (List.zipWith (fun vi row => vi * row.getD j 0) v A).sum)

/-- Matrix–vector product `A v`. -/
def matVec (A : List (List ℚ)) (v : List ℚ) : List ℚ :=
  A.map (fun row => (List.zipWith (· * ·) row v).sum)

/-- Modelled from the spec: the forward recursion after the first step.
Each step multiplies the propagated filtered distribution with the current
likelihoods and renormalizes, accumulating the product of normalizers. -/
def filterGo (A : List (List ℚ)) : List ℚ → List (List ℚ) → ℚ × List (List ℚ)
  | _, [] => (1, [])
  | aprev, l :: rest =>
    let p := normalizeVec (List.zipWith (· * ·) (vecMat aprev A) l)
    let q := filterGo A p.2 rest
    (p.1 * q.1, p.2 :: q.2)

/-- Modelled from the spec: the full forward pass.  The first filtered
distribution is the normalized product of the initial distribution with the
first step's likelihoods; the first component is the marginal likelihood
(product of all step normalizers). -/
def hmm_filter (pi0 : List ℚ) (A : List (List ℚ)) :
    List (List ℚ) → ℚ × List (List ℚ)
  | [] => (1, [])
  | l :: rest =>
    let p := normalizeVec (List.zipWith (· * ·) pi0 l)
    let q := filterGo A p.2 rest
    (p.1 * q.1, p.2 :: q.2)

/-- Modelled from the spec: the backward recursion.  The final backward
message is all ones; each earlier message combines the next step's
likelihoods and message through the transition matrix. -/
def backwardGo (A : List (List ℚ)) (K : ℕ) : List (List ℚ) → List (List ℚ)
  | [] => []
  | [_] => [List.replicate K 1]
  | _ :: l2 :: rest =>
    let b := backwardGo A K (l2 :: rest)
    matVec A (List.zipWith (· * ·) l2 (b.headD [])) :: b

/-- The posterior record returned by `hmm_smoother`, carrying what
`compute_transition_probs` reads alongside the smoothed marginals and the
marginal (log-)likelihood (held in likelihood space, see the header). -/
structure HMMPosterior where
  marginal_loglik : ℚ
  filtered_probs : List (List ℚ)
  backward_msgs : List (List ℚ)
  cond_liks : List (List ℚ)
  smoothed_probs : List (List ℚ)
deriving Repr, DecidableEq

/-- Modelled from the spec (§4.3): forward pass, backward pass, and the
combination into per-timestep smoothed marginals (normalized products of
forward and backward quantities). -/
def hmm_smoother (pi0 : List ℚ) (A : List (List ℚ)) (L : List (List ℚ)) :
    HMMPosterior :=
  let p := hmm_filter pi0 A L
  let bs := backwardGo A A.length L
  { marginal_loglik := p.1
  , filtered_probs := p.2
  , backward_msgs := bs
  , cond_liks := L
  , smoothed_probs :=
      List.zipWith (fun a b => (normalizeVec (List.zipWith (· * ·) a b)).2) p.2 bs }

/-- Modelled from the spec (§3, §4.3): the pairwise consecutive-timestep
transition posteriors, each normalized, summed over time into a single
`num_states × num_states` matrix (zero for sequences of length ≤ 1). -/
def compute_transition_probs (A : List (List ℚ)) (post : HMMPosterior) :
    List (List ℚ) :=
  let K := A.length
  let T := post.filtered_probs.length
  (List.range K).map (fun i => (List.range K).map (fun j =>
    ((List.range (T - 1)).map (fun t =>
      let w := fun i2 j2 => entry post.filtered_probs t i2 * entry A i2 j2 *
        entry post.cond_liks (t + 1) j2 * entry post.backward_msgs (t + 1) j2
      let z := ((List.range K).map (fun i2 =>
        ((List.range K).map (fun j2 => w i2 j2)).sum)).sum
      w i j / z)).sum))

/-- `jax.nn.one_hot` of a class index over `C` classes. -/
def oneHot (x C : ℕ) : List ℚ := (List.range C).map (fun i => if x = i then 1 else 0)

/-- Modelled from the spec (§4.4): `_conditional_logliks` of `BaseHMM`, in
probability space — for each timestep and each state, the product over
emission channels of the probability of the observed class under that
state's categorical parameters. -/
def conditional_liks (m : CategoricalHMM) (emissions : List (List ℕ)) :
    List (List ℚ) :=
  emissions.map (fun o =>
    m.emission_probs.map (fun st =>
      (List.zipWith (fun chan cls => chan.getD cls 0) st o).prod))

/-- The einsum `"tk,tdi->kdi"` of the smoothed marginals with the one-hot
encoded observations: expected emission counts per state, channel, class. -/
def sumX (g : List (List ℚ)) (emissions : List (List ℕ)) (C : ℕ) :
    List (List (List ℚ)) :=
  let K := (g.headD []).length
  let D := (emissions.headD []).length
  (List.range K).map (fun k => (List.range D).map (fun d => (List.range C).map (fun i =>
    (List.zipWith (fun gt o => gt.getD k 0 * (oneHot (o.getD d 0) C).getD i 0)
      g emissions).sum)))

/-- `_single_e_step`: smooth one sequence and pack the sufficient
statistics: the marginal (log-)likelihood, the first smoothed marginal, the
summed transition posteriors, and the expected emission counts. -/
def single_e_step (m : CategoricalHMM) (emissions : List (List ℕ)) :
    CatSuffStats :=
  let post := hmm_smoother m.initial_probs m.transition_matrix
    (conditional_liks m emissions)
  { marginal_loglik := post.marginal_loglik
  , initial_probs := post.smoothed_probs.headD []
  , trans_probs := compute_transition_probs m.transition_matrix post
  , sum_x := sumX post.smoothed_probs emissions (num_classes m) }

/-- `e_step`: `vmap(_single_e_step)` over the batch — an independent map
with no cross-sequence interaction. -/
def e_step (m : CategoricalHMM) (batch_emissions : List (List (List ℕ))) :
    List CatSuffStats :=
  batch_emissions.map (single_e_step m)

/-! ### Construction and random initialization -/

/-- A jnp array of arbitrary rank, as passed to the constructor. -/
inductive NDArr where
  | scalar : ℚ → NDArr
  | arr : List NDArr → NDArr

/-- `ndim` of an array: the nesting depth, read along the first axis as
numpy does for its (rectangular) arrays. -/
def ndim : NDArr → ℕ
  | .scalar _ => 0
  | .arr [] => 1
  | .arr (x :: _) => 1 + ndim x

/-- Scalar content of a rank-0 array (junk `0` otherwise). -/
def asScalar : NDArr → ℚ
  | .scalar q => q
  | .arr _ => 0

/-- Vector content of a rank-1 array (junk on deeper entries). -/
def asVec : NDArr → List ℚ
  | .scalar _ => []
  | .arr l => l.map asScalar

/-- Matrix content of a rank-2 array. -/
def asMat : NDArr → List (List ℚ)
  | .scalar _ => []
  | .arr l => l.map asVec

/-- Rank-3 tensor content of a rank-3 array. -/
def asT3 : NDArr → List (List (List ℚ))
  | .scalar _ => []
  | .arr l => l.map asMat

/-- `CategoricalHMM.__init__`: stores the initial distribution and
transition matrix (via `BaseHMM.__init__`, which per the spec only holds
them), then asserts that `emission_probs.ndim == 3`; the constructor fails
(returns `none`) exactly when the assertion fails. -/
def mkCategoricalHMM (initial_probabilities : List ℚ)
    (transition_matrix : List (List ℚ)) (emission_probs : NDArr) :
    Option CategoricalHMM :=
  if ndim emission_probs = 3 then
    some { initial_probs := initial_probabilities
         , transition_matrix := transition_matrix
         , emission_probs := asT3 emission_probs }
  else none

/-! ### A statement-level, fallible embedding of the `m_step` body

The pure `m_step` above models the value computed on a fully successful
call over well-typed statistics.  The source body, however, is three
sequential in-place assignments

    self._initial_probs.value      = tfd.Dirichlet(1.0001 + stats.initial_probs).mode()
    self._transition_matrix.value  = tfd.Dirichlet(1.0001 + stats.trans_probs).mode()
    self._emission_probs.value     = tfd.Dirichlet(1.1 + stats.sum_x).mode()

preceded by the `tree_map` batch sum, and `tfd.Dirichlet` raises at
construction when its concentration has rank 0 (it requires at least one
event dimension).  To reason about what state the parameters are left in
when one of these statements raises, the definitions below re-embed the
body statement by statement over arbitrary-rank arrays (`NDArr`), with
each potentially raising expression returning an `Option` and the
parameter triple threaded through the assignments in program order. -/

mutual

/-- Elementwise sum of two equal-shape arrays (one `jnp` addition of two
stacked-leaf slices; shape-mismatched junk inputs map to a junk scalar). -/
def addND : NDArr → NDArr → NDArr
  | .scalar a, .scalar b => .scalar (a + b)
  | .arr l1, .arr l2 => .arr (zipND l1 l2)
  | _, _ => .scalar 0

/-- Elementwise sum of two lists of arrays. -/
def zipND : List NDArr → List NDArr → List NDArr
  | x :: xs, y :: ys => addND x y :: zipND xs ys
  | _, _ => []

end

/-- `jnp.sum(x, axis=0)`: folds the leading axis with elementwise
addition.  A rank-0 input raises (`none`); an empty leading axis is
outside the modelled domain and also maps to `none` (either way no
parameter assignment has happened yet when the batch sum fails). -/
def sum0 : NDArr → Option NDArr
  | .scalar _ => none
  | .arr [] => none
  | .arr (x :: xs) => some (xs.foldl addND x)

mutual

/-- Broadcast addition of a scalar pseudo-count, `c + x` on arrays. -/
def addConst (c : ℚ) : NDArr → NDArr
  | .scalar a => .scalar (c + a)
  | .arr l => .arr (addConstList c l)

/-- `addConst` mapped over a list of arrays. -/
def addConstList (c : ℚ) : List NDArr → List NDArr
  | [] => []
  | x :: xs => addConst c x :: addConstList c xs

end

mutual

/-- `tfd.Dirichlet(concentration).mode()` over an arbitrary-rank
concentration: the constructor raises (`none`) on a rank-0 concentration
(TFP requires at least one event dimension); otherwise the mode formula
is applied along the last axis. -/
def dirichletModeND : NDArr → Option NDArr
  | .scalar _ => none
  | .arr [] => some (.arr [])
  | .arr (.scalar a :: rest) =>
    some (.arr ((dirichletMode ((NDArr.scalar a :: rest).map asScalar)).map NDArr.scalar))
  | .arr (.arr l2 :: rest) =>
    match dirichletModeList (NDArr.arr l2 :: rest) with
    | some l3 => some (.arr l3)
    | none => none

/-- `dirichletModeND` mapped over the leading axis, failing if any slice
fails. -/
def dirichletModeList : List NDArr → Option (List NDArr)
  | [] => some []
  | x :: xs =>
    match dirichletModeND x, dirichletModeList xs with
    | some y, some ys => some (y :: ys)
    | _, _ => none

end

/-- The model's three parameter arrays, as mutated by the `m_step` body. -/
structure ParamsND where
  initial_probs : NDArr
  transition_matrix : NDArr
  emission_probs : NDArr

/-- A batch of sufficient statistics as `vmap` actually returns it: one
record whose leaves carry a leading batch axis. -/
structure StatsND where
  marginal_loglik : NDArr
  initial_probs : NDArr
  trans_probs : NDArr
  sum_x : NDArr

/-- `tree_map(partial(jnp.sum, axis=0), batch_posteriors)` over the
arbitrary-rank record: fails (`none`) if summing any leaf raises. -/
def statsSummed (bp : StatsND) : Option StatsND :=
  match sum0 bp.marginal_loglik, sum0 bp.initial_probs, sum0 bp.trans_probs,
      sum0 bp.sum_x with
  | some a, some b, some c, some d =>
    some { marginal_loglik := a, initial_probs := b, trans_probs := c, sum_x := d }
  | _, _, _, _ => none

/-- Outcome of running the `m_step` body: `ok` with the final parameters
on a fully successful call, or `err` with the parameters as they stand
when an exception propagates. -/
inductive StepResult where
  | ok : ParamsND → StepResult
  | err : ParamsND → StepResult

/-- The `m_step` body run statement by statement: batch sum first, then
the three assignments in program order, each overwriting its parameter
only after its right-hand side evaluated successfully, and each failure
aborting with the parameters in their current (possibly already partially
overwritten) state. -/
def m_step_seq (p : ParamsND) (batch_posteriors : StatsND) : StepResult :=
  match statsSummed batch_posteriors with
  | none => .err p
  | some s =>
    match dirichletModeND (addConst 1.0001 s.initial_probs) with
    | none => .err p
    | some ni =>
      match dirichletModeND (addConst 1.0001 s.trans_probs) with
      | none => .err { p with initial_probs := ni }
      | some nt =>
        match dirichletModeND (addConst 1.1 s.sum_x) with
        | none => .err { initial_probs := ni, transition_matrix := nt,
                         emission_probs := p.emission_probs }
        | some ne => .ok { initial_probs := ni, transition_matrix := nt,
                           emission_probs := ne }

/-- Whether the call succeeded. -/
def resultOk : StepResult → Bool
  | .ok _ => true
  | .err _ => false

/-- The parameter state the call leaves behind. -/
def resultParams : StepResult → ParamsND
  | .ok p => p
  | .err p => p

/-- Concrete pre-call parameters (the spec's §8 model, as arrays). -/
def preParams : ParamsND where
  initial_probs := .arr [.scalar (1/2), .scalar (1/2)]
  transition_matrix := .arr [.arr [.scalar (9/10), .scalar (1/10)],
    .arr [.scalar (1/10), .scalar (9/10)]]
  emission_probs := .arr [.arr [.arr [.scalar (8/10), .scalar (1/10), .scalar (1/10)]],
    .arr [.arr [.scalar (1/10), .scalar (1/10), .scalar (8/10)]]]

/-- A malformed single-sequence statistics batch whose `trans_probs` leaf
is rank 1, so its batch sum is rank 0: the second `tfd.Dirichlet`
construction raises after the first assignment already ran. -/
def badBatchStats : StatsND where
  marginal_loglik := .arr [.scalar 1]
  initial_probs := .arr [.arr [.scalar 1, .scalar 3]]
  trans_probs := .arr [.scalar 1]
  sum_x := .arr [.arr [.scalar 1, .scalar 1]]

/-- Modelled from the spec: a key-mixing step of the splittable
deterministic PRNG (`jax.random.split` and per-row key derivation are
external; all that the claims use is that derived keys are a pure function
of the parent key). -/
def mix (key i : ℕ) : ℕ := (key * 2654435761 + i * 40503 + 12345) % 4294967296

/-- Modelled from the spec: a positive gamma-like draw, a pure function of
the key; its exact value is irrelevant, only positivity matters. -/
def gammaLike (key i : ℕ) : ℚ := (((mix key i) % 97 + 1 : ℕ) : ℚ)

/-- Modelled from the spec: `jax.random.dirichlet` with a symmetric
`Dirichlet(1)` concentration over `n` outcomes — deterministic given the
key, and computed (as gamma-normalization does) by normalizing `n` positive
draws, so the result lies on the probability simplex. -/
def dirichletSample (key n : ℕ) : List ℚ :=
  let vals := (List.range n).map (fun i => gammaLike key i)
  vals.map (fun v => v / vals.sum)

/-- `random_initialization(key, num_states, num_emissions, num_classes)`:
splits the key in three and draws the initial distribution, each transition
row, and each (state, channel) emission distribution from symmetric
Dirichlet priors.  The emission tensor is rank 3 by construction, so the
constructor's assertion passes. -/
def random_initialization (key nS nD nC : ℕ) : CategoricalHMM where
  initial_probs := dirichletSample (mix key 0) nS
  transition_matrix := (List.range nS).map (fun r => dirichletSample (mix (mix key 1) r) nS)
  emission_probs := (List.range nS).map (fun s =>
    (List.range nD).map (fun d => dirichletSample (mix (mix key 2) (s * nD + d)) nC))

/-! ### Validity predicates and concrete sample data -/

/-- The smoothed marginals the E-step computes for one sequence. -/
def smoothed_of (m : CategoricalHMM) (emissions : List (List ℕ)) : List (List ℚ) :=
  (hmm_smoother m.initial_probs m.transition_matrix
    (conditional_liks m emissions)).smoothed_probs

/-- A vector has event shape `s` (a one-element shape tuple). -/
def hasShape1 (v : List ℚ) (s : List ℕ) : Prop := s = [v.length]

/-- A matrix is rectangular with event shape `s` (a two-element tuple). -/
def hasShape2 (M : List (List ℚ)) (s : List ℕ) : Prop :=
  ∃ r c, s = [r, c] ∧ M.length = r ∧ ∀ row ∈ M, row.length = c

/-- A rank-3 tensor is rectangular with event shape `s`. -/
def hasShape3 (X : List (List (List ℚ))) (s : List ℕ) : Prop :=
  ∃ a b c, s = [a, b, c] ∧ X.length = a ∧
    ∀ M ∈ X, M.length = b ∧ ∀ row ∈ M, row.length = c

/-- All entries of a statistics record are non-negative. -/
def statsNonneg (s : CatSuffStats) : Prop :=
  (∀ x ∈ s.initial_probs, 0 ≤ x) ∧
  (∀ row ∈ s.trans_probs, ∀ x ∈ row, 0 ≤ x) ∧
  (∀ st ∈ s.sum_x, ∀ row ∈ st, ∀ x ∈ row, 0 ≤ x)

instance (s : CatSuffStats) : Decidable (statsNonneg s) := by
  unfold statsNonneg; infer_instance

/-- The spec's §8 concrete scenario: 2 states, one emission channel,
3 classes. -/
def sampleModel : CategoricalHMM where
  initial_probs := [1/2, 1/2]
  transition_matrix := [[9/10, 1/10], [1/10, 9/10]]
  emission_probs := [[[8/10, 1/10, 1/10]], [[1/10, 1/10, 8/10]]]

/-- A concrete per-sequence statistics record. -/
def sampleStats1 : CatSuffStats where
  marginal_loglik := 1/2
  initial_probs := [1/2, 1/2]
  trans_probs := [[1/4, 1/4], [1/4, 1/4]]
  sum_x := [[[1/2, 1/4, 1/4]], [[1/4, 1/2, 1/4]]]

/-- Another concrete per-sequence statistics record. -/
def sampleStats2 : CatSuffStats where
  marginal_loglik := 1/3
  initial_probs := [1/3, 2/3]
  trans_probs := [[0, 1/2], [1/2, 0]]
  sum_x := [[[1, 0, 0]], [[0, 0, 1]]]

/-- A concrete observation sequence (length 2, one channel). -/
def sampleObs : List (List ℕ) := [[0], [2]]

/-- A concrete one-sequence batch of observations (length 2, one channel). -/
def sampleBatchE : List (List (List ℕ)) := [[[0], [2]]]

/-! ### Helper lemmas on list arithmetic -/

theorem getD_range_map {α : Type} (f : ℕ → α) {n j : ℕ} (d : α) (h : j < n) :
    ((List.range n).map f).getD j d = f j := by
  have hl : j < ((List.range n).map f).length := by simpa using h
  rw [List.getD_eq_getElem _ _ hl]
  simp

theorem getD_map_lt {α β : Type} (f : α → β) (l : List α) {j : ℕ} (d : β)
    (d2 : α) (h : j < l.length) : (l.map f).getD j d = f (l.getD j d2) := by
  have hl : j < (l.map f).length := by simpa using h
  rw [List.getD_eq_getElem _ _ hl, List.getD_eq_getElem _ _ h]
  simp

theorem getD_mem_of_lt {α : Type} {l : List α} {n : ℕ} (d : α)
    (h : n < l.length) : l.getD n d ∈ l := by
  rw [List.getD_eq_getElem _ _ h]
  exact List.getElem_mem h

theorem dirichletMode_getD {a : List ℚ} {i : ℕ} (h : i < a.length) :
    (dirichletMode a).getD i 0 = (a.getD i 0 - 1) / (a.sum - (a.length : ℚ)) := by
  unfold dirichletMode
  exact getD_map_lt _ a 0 0 h

theorem sum_map_const_add (c : ℚ) (v : List ℚ) :
    (v.map (fun x => c + x)).sum = (v.length : ℚ) * c + v.sum := by
  induction v with
  | nil => simp
  | cons a t ih => simp [ih]; ring

theorem sum_map_div (l : List ℚ) (c : ℚ) :
    (l.map (fun x => x / c)).sum = l.sum / c := by
  induction l with
  | nil => simp
  | cons a t ih => simp [ih, add_div]

theorem dirichletMode_shift_pos {c : ℚ} (hc : 1 < c) {v : List ℚ}
    (hv : ∀ x ∈ v, 0 ≤ x) :
    ∀ y ∈ dirichletMode (v.map (fun x => c + x)), 0 < y := by
  intro y hy
  unfold dirichletMode at hy
  rw [List.mem_map] at hy
  obtain ⟨w, hw, rfl⟩ := hy
  rw [List.mem_map] at hw
  obtain ⟨x, hx, rfl⟩ := hw
  have hvne : v ≠ [] := by rintro rfl; simp at hx
  have hlen : (1 : ℚ) ≤ (v.length : ℚ) := by
    have : 1 ≤ v.length := List.length_pos.mpr hvne
    exact_mod_cast this
  have hsum : (0 : ℚ) ≤ v.sum := List.sum_nonneg hv
  apply div_pos
  · have := hv x hx; linarith
  · rw [sum_map_const_add, List.length_map]
    nlinarith

theorem gammaLike_pos (key i : ℕ) : 0 < gammaLike key i := by
  unfold gammaLike
  exact_mod_cast Nat.succ_pos (mix key i % 97)

theorem dirichletSample_sum_one {key n : ℕ} (hn : 0 < n) :
    (dirichletSample key n).sum = 1 := by
  unfold dirichletSample
  have hpos : ∀ x ∈ (List.range n).map (fun i => gammaLike key i), 0 < x := by
    intro x hx
    rw [List.mem_map] at hx
    obtain ⟨i, _, rfl⟩ := hx
    exact gammaLike_pos key i
  have hne : (List.range n).map (fun i => gammaLike key i) ≠ [] := by
    simp [List.range_eq_nil]
    omega
  have hs : 0 < ((List.range n).map (fun i => gammaLike key i)).sum :=
    List.sum_pos _ hpos hne
  rw [sum_map_div]
  exact div_self (ne_of_gt hs)

theorem dirichletSample_nonneg (key n : ℕ) :
    ∀ x ∈ dirichletSample key n, 0 ≤ x := by
  intro x hx
  unfold dirichletSample at hx
  rw [List.mem_map] at hx
  obtain ⟨v, hv, rfl⟩ := hx
  rw [List.mem_map] at hv
  obtain ⟨i, _, rfl⟩ := hv
  apply div_nonneg (le_of_lt (gammaLike_pos key i))
  apply List.sum_nonneg
  intro y hy
  rw [List.mem_map] at hy
  obtain ⟨i2, _, rfl⟩ := hy
  exact le_of_lt (gammaLike_pos key i2)

/-! ### Commutativity and associativity of statistics addition -/

theorem vadd_comm (u v : List ℚ) : vadd u v = vadd v u :=
  List.zipWith_comm_of_comm _ add_comm u v

theorem madd_comm (u v : List (List ℚ)) : madd u v = madd v u :=
  List.zipWith_comm_of_comm _ vadd_comm u v

theorem tadd_comm (u v : List (List (List ℚ))) : tadd u v = tadd v u :=
  List.zipWith_comm_of_comm _ madd_comm u v

theorem vadd_rightcomm (u : List ℚ) :
    ∀ v w, vadd (vadd u v) w = vadd (vadd u w) v := by
  induction u with
  | nil => intro v w; simp [vadd]
  | cons a t ih =>
    intro v w
    cases v with
    | nil => cases w <;> simp [vadd]
    | cons b vt =>
      cases w with
      | nil => simp [vadd]
      | cons c wt =>
        simp only [vadd, List.zipWith] at ih ⊢
        rw [add_right_comm]
        exact congrArg _ (ih vt wt)

theorem madd_rightcomm (u : List (List ℚ)) :
    ∀ v w, madd (madd u v) w = madd (madd u w) v := by
  induction u with
  | nil => intro v w; simp [madd]
  | cons a t ih =>
    intro v w
    cases v with
    | nil => cases w <;> simp [madd]
    | cons b vt =>
      cases w with
      | nil => simp [madd]
      | cons c wt =>
        simp only [madd, List.zipWith] at ih ⊢
        rw [vadd_rightcomm]
        exact congrArg _ (ih vt wt)

theorem tadd_rightcomm (u : List (List (List ℚ))) :
    ∀ v w, tadd (tadd u v) w = tadd (tadd u w) v := by
  induction u with
  | nil => intro v w; simp [tadd]
  | cons a t ih =>
    intro v w
    cases v with
    | nil => cases w <;> simp [tadd]
    | cons b vt =>
      cases w with
      | nil => simp [tadd]
      | cons c wt =>
        simp only [tadd, List.zipWith] at ih ⊢
        rw [madd_rightcomm]
        exact congrArg _ (ih vt wt)

theorem addStats_comm (s t : CatSuffStats) : addStats s t = addStats t s := by
  simp [addStats, add_comm, vadd_comm s.initial_probs, madd_comm s.trans_probs,
    tadd_comm s.sum_x]

theorem addStats_rightcomm (s t u : CatSuffStats) :
    addStats (addStats s t) u = addStats (addStats s u) t := by
  simp [addStats, add_right_comm, vadd_rightcomm s.initial_probs,
    madd_rightcomm s.trans_probs, tadd_rightcomm s.sum_x]

theorem foldl_addStats_perm {t1 t2 : List CatSuffStats} (h : t1.Perm t2) :
    ∀ s, t1.foldl addStats s = t2.foldl addStats s := by
  induction h with
  | nil => intro s; rfl
  | cons x _ ih => intro s; simpa using ih (addStats s x)
  | swap x y l => intro s; simp [List.foldl, addStats_rightcomm]
  | trans _ _ ih1 ih2 => intro s; exact (ih1 s).trans (ih2 s)

theorem sumStatsBatch_perm {l1 l2 : List CatSuffStats} (h : l1.Perm l2) :
    sumStatsBatch l1 = sumStatsBatch l2 := by
  induction h with
  | nil => rfl
  | cons x h2 _ => simpa [sumStatsBatch] using foldl_addStats_perm h2 x
  | swap x y l => simp [sumStatsBatch, List.foldl, addStats_comm]
  | trans _ _ ih1 ih2 => exact ih1.trans ih2

/-! ### Shape lemmas for the smoother and the E-step -/

theorem headD_mem {α : Type} {l : List α} (h : l ≠ []) (d : α) : l.headD d ∈ l := by
  cases l with
  | nil => exact absurd rfl h
  | cons a t => simp

theorem headD_length_of_rect {A : List (List ℚ)} {K : ℕ} (h1 : A.length = K)
    (h2 : ∀ row ∈ A, row.length = K) : (A.headD []).length = K := by
  cases A with
  | nil => simpa using h1
  | cons a t => exact h2 a (by simp)

theorem vecMat_length (v : List ℚ) (A : List (List ℚ)) :
    (vecMat v A).length = (A.headD []).length := by
  simp [vecMat]

theorem matVec_length (A : List (List ℚ)) (v : List ℚ) :
    (matVec A v).length = A.length := by
  simp [matVec]

theorem normalizeVec_snd_length (v : List ℚ) :
    ((normalizeVec v).2).length = v.length := by
  simp [normalizeVec]

theorem filterGo_snd_length (A : List (List ℚ)) :
    ∀ (L : List (List ℚ)) (a : List ℚ), ((filterGo A a L).2).length = L.length := by
  intro L
  induction L with
  | nil => intro a; rfl
  | cons l rest ih => intro a; simp [filterGo, ih]

theorem filterGo_rows (A : List (List ℚ)) {K : ℕ}
    (hA0 : (A.headD []).length = K) :
    ∀ (L : List (List ℚ)) (a : List ℚ), (∀ l ∈ L, l.length = K) →
      ∀ r ∈ (filterGo A a L).2, r.length = K := by
  intro L
  induction L with
  | nil => intro a _ r hr; simp [filterGo] at hr
  | cons l rest ih =>
    intro a hL r hr
    simp only [filterGo, List.mem_cons] at hr
    rcases hr with hr | hr
    · subst hr
      rw [normalizeVec_snd_length, List.length_zipWith, vecMat_length, hA0,
        hL l (by simp), min_self]
    · exact ih _ (fun x hx => hL x (by simp [hx])) r hr

theorem hmm_filter_snd_length (pi0 : List ℚ) (A : List (List ℚ))
    (L : List (List ℚ)) : ((hmm_filter pi0 A L).2).length = L.length := by
  cases L with
  | nil => rfl
  | cons l rest => simp [hmm_filter, filterGo_snd_length]

theorem hmm_filter_rows {pi0 : List ℚ} {A : List (List ℚ)} {K : ℕ}
    (hpi : pi0.length = K) (hA0 : (A.headD []).length = K)
    {L : List (List ℚ)} (hL : ∀ l ∈ L, l.length = K) :
    ∀ r ∈ (hmm_filter pi0 A L).2, r.length = K := by
  cases L with
  | nil => intro r hr; simp [hmm_filter] at hr
  | cons l rest =>
    intro r hr
    simp only [hmm_filter, List.mem_cons] at hr
    rcases hr with hr | hr
    · subst hr
      rw [normalizeVec_snd_length, List.length_zipWith, hpi, hL l (by simp), min_self]
    · exact filterGo_rows A hA0 rest _ (fun x hx => hL x (by simp [hx])) r hr

theorem backwardGo_length (A : List (List ℚ)) (K : ℕ) :
    ∀ L : List (List ℚ), (backwardGo A K L).length = L.length := by
  intro L
  induction L with
  | nil => rfl
  | cons l rest ih =>
    cases rest with
    | nil => rfl
    | cons l2 rest2 => simp only [backwardGo, List.length_cons] at ih ⊢; omega

theorem backwardGo_rows {A : List (List ℚ)} {K : ℕ} (hA1 : A.length = K) :
    ∀ L : List (List ℚ), ∀ b ∈ backwardGo A K L, b.length = K := by
  intro L
  induction L with
  | nil => intro b hb; simp [backwardGo] at hb
  | cons l rest ih =>
    cases rest with
    | nil =>
      intro b hb
      simp only [backwardGo, List.mem_singleton] at hb
      simp [hb]
    | cons l2 rest2 =>
      intro b hb
      simp only [backwardGo, List.mem_cons] at hb
      rcases hb with hb | hb
      · subst hb; rw [matVec_length, hA1]
      · exact ih b hb

theorem zipWith_norm_rows {K : ℕ} :
    ∀ (as bs : List (List ℚ)), (∀ a ∈ as, a.length = K) →
      (∀ b ∈ bs, b.length = K) →
      ∀ g ∈ List.zipWith (fun a b => (normalizeVec (List.zipWith (· * ·) a b)).2) as bs,
        g.length = K := by
  intro as
  induction as with
  | nil => intro bs _ _ g hg; simp at hg
  | cons a t ih =>
    intro bs ha hb g hg
    cases bs with
    | nil => simp at hg
    | cons b bt =>
      simp only [List.zipWith, List.mem_cons] at hg
      rcases hg with hg | hg
      · subst hg
        rw [normalizeVec_snd_length, List.length_zipWith, ha a (by simp),
          hb b (by simp), min_self]
      · exact ih bt (fun x hx => ha x (by simp [hx])) (fun x hx => hb x (by simp [hx])) g hg

theorem conditional_liks_length (m : CategoricalHMM) (obs : List (List ℕ)) :
    (conditional_liks m obs).length = obs.length := by
  simp [conditional_liks]

theorem conditional_liks_rows (m : CategoricalHMM) (obs : List (List ℕ)) :
    ∀ l ∈ conditional_liks m obs, l.length = m.emission_probs.length := by
  intro l hl
  rw [conditional_liks, List.mem_map] at hl
  obtain ⟨o, _, rfl⟩ := hl
  simp

theorem smoothed_of_length (m : CategoricalHMM) (obs : List (List ℕ)) :
    (smoothed_of m obs).length = obs.length := by
  rw [smoothed_of, hmm_smoother]
  simp only [List.length_zipWith]
  rw [hmm_filter_snd_length, backwardGo_length, conditional_liks_length, min_self]

theorem smoothed_of_rows {m : CategoricalHMM} {K : ℕ}
    (hpi : m.initial_probs.length = K) (hE1 : m.emission_probs.length = K)
    (hA0 : (m.transition_matrix.headD []).length = K)
    (hA1 : m.transition_matrix.length = K) (obs : List (List ℕ)) :
    ∀ g ∈ smoothed_of m obs, g.length = K := by
  rw [smoothed_of, hmm_smoother, hA1]
  exact zipWith_norm_rows _ _
    (hmm_filter_rows hpi hA0 (fun l hl => (conditional_liks_rows m obs l hl).trans hE1))
    (backwardGo_rows hA1 _)

theorem compute_transition_probs_shape (A : List (List ℚ)) (post : HMMPosterior) :
    (compute_transition_probs A post).length = A.length ∧
    ∀ row ∈ compute_transition_probs A post, row.length = A.length := by
  constructor
  · simp [compute_transition_probs]
  · intro row hrow
    rw [compute_transition_probs, List.mem_map] at hrow
    obtain ⟨i, _, rfl⟩ := hrow
    simp

theorem sumX_shape (g : List (List ℚ)) (obs : List (List ℕ)) (C : ℕ) :
    hasShape3 (sumX g obs C) [(g.headD []).length, (obs.headD []).length, C] := by
  refine ⟨(g.headD []).length, (obs.headD []).length, C, rfl, by simp [sumX], ?_⟩
  intro M hM
  rw [sumX, List.mem_map] at hM
  obtain ⟨k, _, rfl⟩ := hM
  refine ⟨by simp, ?_⟩
  intro row hrow
  rw [List.mem_map] at hrow
  obtain ⟨d, _, rfl⟩ := hrow
  simp

/-! ### Sum-manipulation lemmas for the expected emission counts -/

theorem listSum_range (f : ℕ → ℚ) (n : ℕ) :
    ((List.range n).map f).sum = ∑ t ∈ Finset.range n, f t := by
  induction n with
  | zero => simp
  | succ n ih => rw [List.range_succ, Finset.sum_range_succ, List.map_append]; simp [ih]

theorem zipWith_sum_eq_range {α β : Type} (f : α → β → ℚ) (da : α) (db : β) :
    ∀ (xs : List α) (ys : List β), xs.length = ys.length →
      (List.zipWith f xs ys).sum =
        ((List.range ys.length).map (fun t => f (xs.getD t da) (ys.getD t db))).sum := by
  intro xs
  induction xs with
  | nil =>
    intro ys h
    rw [List.length_nil] at h
    rw [← h]
    simp
  | cons x xt ih =>
    intro ys h
    cases ys with
    | nil => simp at h
    | cons y yt =>
      simp only [List.length_cons] at h
      simp only [List.zipWith, List.sum_cons, List.length_cons,
        List.range_succ_eq_map, List.map_cons, List.map_map]
      rw [ih yt (by omega)]
      have hmap : List.map ((fun t => f ((x :: xt).getD t da) ((y :: yt).getD t db)) ∘ Nat.succ)
          (List.range yt.length) =
          List.map (fun t => f (xt.getD t da) (yt.getD t db)) (List.range yt.length) := by
        apply List.map_congr_left
        intro t ht
        simp
      rw [hmap]
      simp

theorem sum_getD_range (l : List ℚ) :
    ((List.range l.length).map (fun i => l.getD i 0)).sum = l.sum := by
  induction l with
  | nil => simp
  | cons a t ih =>
    simp only [List.length_cons, List.range_succ_eq_map, List.map_cons,
      List.map_map, List.sum_cons]
    have hmap : List.map ((fun i => (a :: t).getD i 0) ∘ Nat.succ) (List.range t.length) =
        List.map (fun i => t.getD i 0) (List.range t.length) := by
      apply List.map_congr_left
      intro i hi
      simp
    rw [hmap, ih]
    simp

theorem oneHot_getD {x C i : ℕ} (h : i < C) :
    (oneHot x C).getD i 0 = if x = i then (1 : ℚ) else 0 := by
  unfold oneHot
  exact getD_range_map _ _ h

theorem finset_sum_getD (l : List ℚ) :
    ∑ i ∈ Finset.range l.length, l.getD i 0 = l.sum := by
  rw [← listSum_range, sum_getD_range]

theorem oneHot_sum_range {o C : ℕ} (ho : o < C) :
    ∑ i ∈ Finset.range C, (oneHot o C).getD i 0 = 1 := by
  rw [Finset.sum_congr rfl (fun i hi => oneHot_getD (Finset.mem_range.mp hi)),
    Finset.sum_ite_eq (Finset.range C) o (fun _ => (1 : ℚ))]
  simp [ho]

theorem sumX_channel_sum (g : List (List ℚ)) (obs : List (List ℕ)) (C d : ℕ)
    (hlen : g.length = obs.length)
    (hrect : ∀ o ∈ obs, o.length = (obs.headD []).length)
    (hcls : ∀ o ∈ obs, ∀ x ∈ o, x < C)
    (hrows : ∀ r ∈ g, r.length = (g.headD []).length ∧ r.sum = 1)
    (hd : d < (obs.headD []).length) :
    ((sumX g obs C).map (fun ks => (ks.getD d []).sum)).sum = (obs.length : ℚ) := by
  simp only [sumX]
  rw [List.map_map, listSum_range]
  have hterm : ∀ k : ℕ,
      ((fun ks => (ks.getD d []).sum) ∘ fun k => (List.range (obs.headD []).length).map
        (fun d2 => (List.range C).map (fun i =>
          (List.zipWith (fun gt o => gt.getD k 0 * (oneHot (o.getD d2 0) C).getD i 0)
            g obs).sum))) k =
      ∑ i ∈ Finset.range C, ∑ t ∈ Finset.range obs.length,
        (g.getD t []).getD k 0 * (oneHot ((obs.getD t []).getD d 0) C).getD i 0 := by
    intro k
    show (((List.range (obs.headD []).length).map (fun d2 => (List.range C).map (fun i =>
      (List.zipWith (fun gt o => gt.getD k 0 * (oneHot (o.getD d2 0) C).getD i 0)
        g obs).sum))).getD d []).sum = _
    rw [getD_range_map _ [] hd, listSum_range]
    exact Finset.sum_congr rfl (fun i _ => by
      rw [zipWith_sum_eq_range _ [] [] _ _ hlen, listSum_range])
  rw [Finset.sum_congr rfl (fun k _ => hterm k)]
  rw [Finset.sum_congr rfl (fun k _ => Finset.sum_comm), Finset.sum_comm]
  have hpoint : ∀ t ∈ Finset.range obs.length,
      (∑ k ∈ Finset.range (g.headD []).length, ∑ i ∈ Finset.range C,
        (g.getD t []).getD k 0 * (oneHot ((obs.getD t []).getD d 0) C).getD i 0) = 1 := by
    intro t ht
    rw [Finset.mem_range] at ht
    have hrow : g.getD t [] ∈ g := getD_mem_of_lt [] (by omega)
    obtain ⟨hlenK, hsum1⟩ := hrows _ hrow
    have homem : obs.getD t [] ∈ obs := getD_mem_of_lt [] ht
    have hdo : d < (obs.getD t []).length := by rw [hrect _ homem]; exact hd
    have hoc : (obs.getD t []).getD d 0 < C :=
      hcls _ homem _ (getD_mem_of_lt 0 hdo)
    calc (∑ k ∈ Finset.range (g.headD []).length, ∑ i ∈ Finset.range C,
          (g.getD t []).getD k 0 * (oneHot ((obs.getD t []).getD d 0) C).getD i 0)
        = ∑ k ∈ Finset.range (g.headD []).length, (g.getD t []).getD k 0 *
            ∑ i ∈ Finset.range C, (oneHot ((obs.getD t []).getD d 0) C).getD i 0 :=
          Finset.sum_congr rfl (fun k _ => (Finset.mul_sum _ _ _).symm)
      _ = ∑ k ∈ Finset.range (g.headD []).length, (g.getD t []).getD k 0 := by
          rw [oneHot_sum_range hoc]; simp
      _ = (g.getD t []).sum := by rw [← hlenK, finset_sum_getD]
      _ = 1 := hsum1
  rw [Finset.sum_congr rfl hpoint]
  simp

/-! ### Claim theorems -/

/-- C2 counterexample: `m_step` is not atomic.  Running the body on the
§8 parameters with a statistics batch whose `trans_probs` leaf is rank 1
(so its batch sum is rank 0) gives a call that fails — yet the initial
distribution no longer holds its pre-call value while the transition
matrix and emission probabilities still do: partial mutation is
observable on a failing call, refuting "the call fails and every
parameter retains exactly its pre-call value". -/
theorem m_step_partial_mutation_counterexample :
    resultOk (m_step_seq preParams badBatchStats) = false ∧
    (resultParams (m_step_seq preParams badBatchStats)).initial_probs ≠
      preParams.initial_probs ∧
    (resultParams (m_step_seq preParams badBatchStats)).transition_matrix =
      preParams.transition_matrix ∧
    (resultParams (m_step_seq preParams badBatchStats)).emission_probs =
      preParams.emission_probs := by
  refine ⟨?_, ?_, ?_, ?_⟩ <;>
    norm_num [m_step_seq, statsSummed, sum0, addConst, addConstList,
      dirichletModeND, dirichletMode, asScalar, resultOk, resultParams,
      preParams, badBatchStats]

/-- C2 amended: for every call of the `m_step` body, either the call
fully succeeds and all three parameters are replaced by the freshly
computed Dirichlet modes, or the call fails having overwritten only the
(possibly empty) prefix of the parameters whose assignments completed
before the failing statement, in program order (initial distribution,
then transition matrix, then emission probabilities); every parameter at
or after the failing statement retains exactly its pre-call value.  In
particular a failure in the batch sum or in the first Dirichlet
construction mutates nothing. -/
theorem m_step_seq_prefix_mutation (p : ParamsND) (bp : StatsND) :
    (∃ s ni nt ne, statsSummed bp = some s ∧
      dirichletModeND (addConst 1.0001 s.initial_probs) = some ni ∧
      dirichletModeND (addConst 1.0001 s.trans_probs) = some nt ∧
      dirichletModeND (addConst 1.1 s.sum_x) = some ne ∧
      m_step_seq p bp = .ok ⟨ni, nt, ne⟩) ∨
    (statsSummed bp = none ∧ m_step_seq p bp = .err p) ∨
    (∃ s, statsSummed bp = some s ∧
      dirichletModeND (addConst 1.0001 s.initial_probs) = none ∧
      m_step_seq p bp = .err p) ∨
    (∃ s ni, statsSummed bp = some s ∧
      dirichletModeND (addConst 1.0001 s.initial_probs) = some ni ∧
      dirichletModeND (addConst 1.0001 s.trans_probs) = none ∧
      m_step_seq p bp = .err ⟨ni, p.transition_matrix, p.emission_probs⟩) ∨
    (∃ s ni nt, statsSummed bp = some s ∧
      dirichletModeND (addConst 1.0001 s.initial_probs) = some ni ∧
      dirichletModeND (addConst 1.0001 s.trans_probs) = some nt ∧
      dirichletModeND (addConst 1.1 s.sum_x) = none ∧
      m_step_seq p bp = .err ⟨ni, nt, p.emission_probs⟩) := by
  cases h0 : statsSummed bp with
  | none => exact Or.inr (Or.inl ⟨rfl, by simp [m_step_seq, h0]⟩)
  | some s =>
    cases h1 : dirichletModeND (addConst 1.0001 s.initial_probs) with
    | none =>
      exact Or.inr (Or.inr (Or.inl ⟨s, rfl, h1, by simp [m_step_seq, h0, h1]⟩))
    | some ni =>
      cases h2 : dirichletModeND (addConst 1.0001 s.trans_probs) with
      | none =>
        exact Or.inr (Or.inr (Or.inr (Or.inl
          ⟨s, ni, rfl, h1, h2, by simp [m_step_seq, h0, h1, h2]⟩)))
      | some nt =>
        cases h3 : dirichletModeND (addConst 1.1 s.sum_x) with
        | none =>
          exact Or.inr (Or.inr (Or.inr (Or.inr
            ⟨s, ni, nt, rfl, h1, h2, h3, by simp [m_step_seq, h0, h1, h2, h3]⟩)))
        | some ne =>
          exact Or.inl ⟨s, ni, nt, ne, rfl, h1, h2, h3,
            by simp [m_step_seq, h0, h1, h2, h3]⟩

/-- C7: constructing the model fails if and only if `emission_probs` does
not have rank 3; the check runs eagerly inside the constructor and there
is no retry path. -/
theorem construction_fails_iff_rank_ne_three (ip : List ℚ)
    (tm : List (List ℚ)) (e : NDArr) :
    mkCategoricalHMM ip tm e = none ↔ ndim e ≠ 3 := by
  unfold mkCategoricalHMM
  split <;> simp_all

/-- C10: the parameters produced by `m_step` are independent of
`batch_emissions` and of the extra keyword arguments: for a fixed batch of
statistics, any two values of those arguments give identical results. -/
theorem m_step_ignores_emissions (m : CategoricalHMM)
    (e1 e2 : List (List (List ℕ))) (kw1 kw2 : List ℚ)
    (batch : List CatSuffStats) :
    m_step m e1 kw1 batch = m_step m e2 kw2 batch := rfl

/-- C5: `m_step` depends on the batch of statistics only through its
elementwise sum over the batch axis: replacing the batch by the singleton
holding its summed record changes nothing, a batch of two identical
records equals the manually pre-summed singleton, and any permutation of
the batch yields identical results (the reduction is an associative,
commutative elementwise sum). -/
theorem m_step_batch_sum_reduction (m : CategoricalHMM)
    (e : List (List (List ℕ))) (kw : List ℚ) (batch : List CatSuffStats) :
    m_step m e kw batch = m_step m e kw [sumStatsBatch batch] ∧
    (∀ s, m_step m e kw [s, s] = m_step m e kw [addStats s s]) ∧
    (∀ batch2, batch.Perm batch2 → m_step m e kw batch = m_step m e kw batch2) := by
  refine ⟨rfl, fun s => rfl, fun batch2 hp => ?_⟩
  simp [m_step, sumStatsBatch_perm hp]

/-- Witness for C5 at a concrete model, batch and permutation. -/
theorem m_step_batch_sum_reduction_witness :
    [sampleStats1, sampleStats2].Perm [sampleStats2, sampleStats1] ∧
    m_step sampleModel sampleBatchE [] [sampleStats1, sampleStats2] =
      m_step sampleModel sampleBatchE [] [sampleStats2, sampleStats1] :=
  ⟨List.Perm.swap sampleStats2 sampleStats1 [],
    (m_step_batch_sum_reduction sampleModel sampleBatchE [] [sampleStats1, sampleStats2]).2.2
      [sampleStats2, sampleStats1] (List.Perm.swap sampleStats2 sampleStats1 [])⟩

/-- C3: on a batch of statistics with non-negative entries, `m_step` sets
every entry of the new initial distribution, of each transition row, and
of each (state, channel) emission distribution to the Dirichlet-posterior
mode `(α i − 1) / (Σ α − K)` of the summed statistic shifted by the
pseudo-count (`1.0001` for initial and transition, the strictly larger
`1.1` for emissions), both pseudo-counts being strictly greater than 1. -/
theorem m_step_dirichlet_mode_formula (m : CategoricalHMM)
    (e : List (List (List ℕ))) (kw : List ℚ) (batch : List CatSuffStats)
    (hnn : ∀ s ∈ batch, statsNonneg s) (i r j k d c : ℕ)
    (hi : i < (sumStatsBatch batch).initial_probs.length)
    (hr : r < (sumStatsBatch batch).trans_probs.length)
    (hj : j < ((sumStatsBatch batch).trans_probs.getD r []).length)
    (hk : k < (sumStatsBatch batch).sum_x.length)
    (hd : d < ((sumStatsBatch batch).sum_x.getD k []).length)
    (hc : c < (((sumStatsBatch batch).sum_x.getD k []).getD d []).length) :
    ((1 : ℚ) < 1.0001 ∧ (1.0001 : ℚ) < 1.1) ∧
    (m_step m e kw batch).initial_probs.getD i 0 =
      ((1.0001 + (sumStatsBatch batch).initial_probs.getD i 0) - 1) /
        (((sumStatsBatch batch).initial_probs.map (fun x => (1.0001 : ℚ) + x)).sum -
          ((sumStatsBatch batch).initial_probs.length : ℚ)) ∧
    ((m_step m e kw batch).transition_matrix.getD r []).getD j 0 =
      ((1.0001 + ((sumStatsBatch batch).trans_probs.getD r []).getD j 0) - 1) /
        ((((sumStatsBatch batch).trans_probs.getD r []).map (fun x => (1.0001 : ℚ) + x)).sum -
          (((sumStatsBatch batch).trans_probs.getD r []).length : ℚ)) ∧
    ((((m_step m e kw batch).emission_probs.getD k []).getD d []).getD c 0 =
      ((1.1 + (((sumStatsBatch batch).sum_x.getD k []).getD d []).getD c 0) - 1) /
        (((((sumStatsBatch batch).sum_x.getD k []).getD d []).map (fun x => (1.1 : ℚ) + x)).sum -
          ((((sumStatsBatch batch).sum_x.getD k []).getD d []).length : ℚ))) := by
  refine ⟨⟨by norm_num, by norm_num⟩, ?_, ?_, ?_⟩
  · show (updated_initial (sumStatsBatch batch)).getD i 0 = _
    unfold updated_initial
    rw [dirichletMode_getD (by simpa using hi), getD_map_lt _ _ 0 0 hi,
      List.length_map]
  · show ((updated_transition (sumStatsBatch batch)).getD r []).getD j 0 = _
    unfold updated_transition
    rw [getD_map_lt _ _ [] [] hr, dirichletMode_getD (by simpa using hj),
      getD_map_lt _ _ 0 0 hj, List.length_map]
  · show (((updated_emission (sumStatsBatch batch).sum_x).getD k []).getD d []).getD c 0 = _
    unfold updated_emission
    rw [getD_map_lt _ _ [] [] hk, getD_map_lt _ _ [] [] hd,
      dirichletMode_getD (by simpa using hc), getD_map_lt _ _ 0 0 hc,
      List.length_map]

/-- Witness for C3 at a concrete non-negative batch and concrete indices. -/
theorem m_step_dirichlet_mode_formula_witness :
    ((∀ s ∈ [sampleStats1, sampleStats2], statsNonneg s) ∧
      0 < (sumStatsBatch [sampleStats1, sampleStats2]).initial_probs.length ∧
      0 < (sumStatsBatch [sampleStats1, sampleStats2]).trans_probs.length ∧
      0 < ((sumStatsBatch [sampleStats1, sampleStats2]).trans_probs.getD 0 []).length ∧
      0 < (sumStatsBatch [sampleStats1, sampleStats2]).sum_x.length ∧
      0 < ((sumStatsBatch [sampleStats1, sampleStats2]).sum_x.getD 0 []).length ∧
      0 < (((sumStatsBatch [sampleStats1, sampleStats2]).sum_x.getD 0 []).getD 0 []).length) ∧
    (m_step sampleModel sampleBatchE [] [sampleStats1, sampleStats2]).initial_probs.getD 0 0 =
      ((1.0001 + (sumStatsBatch [sampleStats1, sampleStats2]).initial_probs.getD 0 0) - 1) /
        (((sumStatsBatch [sampleStats1, sampleStats2]).initial_probs.map
            (fun x => (1.0001 : ℚ) + x)).sum -
          ((sumStatsBatch [sampleStats1, sampleStats2]).initial_probs.length : ℚ)) :=
  ⟨⟨by norm_num [statsNonneg, sampleStats1, sampleStats2], by decide, by decide,
      by decide, by decide, by decide, by decide⟩,
    (m_step_dirichlet_mode_formula sampleModel sampleBatchE []
      [sampleStats1, sampleStats2]
      (by norm_num [statsNonneg, sampleStats1, sampleStats2]) 0 0 0 0 0 0
      (by decide) (by decide) (by decide) (by decide) (by decide) (by decide)).2.1⟩

/-- C6: after an `m_step` call whose summed statistics have only
non-negative entries, every entry of the new initial distribution, of the
new transition matrix and of the new emission tensor is strictly positive,
because every pseudo-count added before taking the Dirichlet mode is
strictly greater than 1. -/
theorem m_step_strictly_positive (m : CategoricalHMM)
    (e : List (List (List ℕ))) (kw : List ℚ) (batch : List CatSuffStats)
    (hnn : statsNonneg (sumStatsBatch batch)) :
    (∀ x ∈ (m_step m e kw batch).initial_probs, 0 < x) ∧
    (∀ row ∈ (m_step m e kw batch).transition_matrix, ∀ x ∈ row, 0 < x) ∧
    (∀ st ∈ (m_step m e kw batch).emission_probs, ∀ row ∈ st, ∀ x ∈ row, 0 < x) := by
  obtain ⟨h1, h2, h3⟩ := hnn
  refine ⟨?_, ?_, ?_⟩
  · exact dirichletMode_shift_pos (by norm_num) h1
  · intro row hrow
    rw [show (m_step m e kw batch).transition_matrix =
      updated_transition (sumStatsBatch batch) from rfl] at hrow
    unfold updated_transition at hrow
    rw [List.mem_map] at hrow
    obtain ⟨orow, ho, rfl⟩ := hrow
    exact dirichletMode_shift_pos (by norm_num) (h2 orow ho)
  · intro st hst row hrow
    rw [show (m_step m e kw batch).emission_probs =
      updated_emission (sumStatsBatch batch).sum_x from rfl] at hst
    unfold updated_emission at hst
    rw [List.mem_map] at hst
    obtain ⟨ost, ho, rfl⟩ := hst
    rw [List.mem_map] at hrow
    obtain ⟨orow, ho2, rfl⟩ := hrow
    exact dirichletMode_shift_pos (by norm_num) (h3 ost ho orow ho2)

/-- Witness for C6 at a concrete non-negative batch. -/
theorem m_step_strictly_positive_witness :
    statsNonneg (sumStatsBatch [sampleStats1, sampleStats2]) ∧
    ((∀ x ∈ (m_step sampleModel sampleBatchE [] [sampleStats1, sampleStats2]).initial_probs, 0 < x) ∧
      (∀ row ∈ (m_step sampleModel sampleBatchE [] [sampleStats1, sampleStats2]).transition_matrix,
        ∀ x ∈ row, 0 < x) ∧
      (∀ st ∈ (m_step sampleModel sampleBatchE [] [sampleStats1, sampleStats2]).emission_probs,
        ∀ row ∈ st, ∀ x ∈ row, 0 < x)) :=
  ⟨by norm_num [statsNonneg, sumStatsBatch, addStats, vadd, madd, tadd,
      sampleStats1, sampleStats2],
    m_step_strictly_positive sampleModel sampleBatchE [] [sampleStats1, sampleStats2]
      (by norm_num [statsNonneg, sumStatsBatch, addStats, vadd, madd, tadd,
        sampleStats1, sampleStats2])⟩

/-- C1: for every validly shaped model, the per-field event shapes
returned by `suff_stats_event_shape` (`marginal_loglik` scalar,
`initial_probs` of length `num_states`, `trans_probs` of
`num_states × num_states`, `sum_x` of `num_states × num_obs ×
num_classes`) are exactly the shapes of the corresponding fields of each
per-sequence statistics record produced by `e_step` on a batch of
non-empty sequences of `num_obs`-channel observations; evaluating
`suff_stats_event_shape` is total, so it never fails on a validly
constructed model. -/
theorem suff_stats_event_shape_matches_e_step (m : CategoricalHMM)
    (hA1 : m.transition_matrix.length = num_states m)
    (hA2 : ∀ row ∈ m.transition_matrix, row.length = num_states m)
    (hE1 : m.emission_probs.length = num_states m)
    (batch : List (List (List ℕ)))
    (hb : ∀ obs ∈ batch, obs ≠ [] ∧ ∀ o ∈ obs, o.length = num_obs m) :
    ∀ stats ∈ e_step m batch,
      (suff_stats_event_shape m).marginal_loglik = [] ∧
      hasShape1 stats.initial_probs (suff_stats_event_shape m).initial_probs ∧
      hasShape2 stats.trans_probs (suff_stats_event_shape m).trans_probs ∧
      hasShape3 stats.sum_x (suff_stats_event_shape m).sum_x := by
  intro stats hst
  rw [e_step, List.mem_map] at hst
  obtain ⟨obs, hobs, rfl⟩ := hst
  obtain ⟨hne, hD⟩ := hb obs hobs
  have hA0 : (m.transition_matrix.headD []).length = num_states m :=
    headD_length_of_rect hA1 hA2
  have hrows : ∀ g ∈ smoothed_of m obs, g.length = num_states m :=
    smoothed_of_rows rfl hE1 hA0 hA1 obs
  have hglen : (smoothed_of m obs).length = obs.length := smoothed_of_length m obs
  have hgne : smoothed_of m obs ≠ [] := by
    intro h
    rw [h] at hglen
    exact hne (List.length_eq_zero.mp hglen.symm)
  refine ⟨rfl, ?_, ?_, ?_⟩
  · have hl : ((single_e_step m obs).initial_probs).length = num_states m := by
      show ((smoothed_of m obs).headD []).length = num_states m
      exact hrows _ (headD_mem hgne [])
    show (suff_stats_event_shape m).initial_probs = [((single_e_step m obs).initial_probs).length]
    rw [hl]
    rfl
  · show hasShape2 (compute_transition_probs m.transition_matrix
      (hmm_smoother m.initial_probs m.transition_matrix (conditional_liks m obs)))
      (suff_stats_event_shape m).trans_probs
    obtain ⟨hl, hr⟩ := compute_transition_probs_shape m.transition_matrix
      (hmm_smoother m.initial_probs m.transition_matrix (conditional_liks m obs))
    exact ⟨num_states m, num_states m, rfl, by rw [hl, hA1],
      fun row hrow => by rw [hr row hrow, hA1]⟩
  · show hasShape3 (sumX (smoothed_of m obs) obs (num_classes m))
      (suff_stats_event_shape m).sum_x
    have h3 := sumX_shape (smoothed_of m obs) obs (num_classes m)
    rw [hrows _ (headD_mem hgne []), hD _ (headD_mem hne [])] at h3
    exact h3

/-- Witness for C1 at the spec's concrete model and a concrete batch. -/
theorem suff_stats_event_shape_matches_e_step_witness :
    (sampleModel.transition_matrix.length = num_states sampleModel ∧
      (∀ row ∈ sampleModel.transition_matrix, row.length = num_states sampleModel) ∧
      sampleModel.emission_probs.length = num_states sampleModel ∧
      (∀ obs ∈ sampleBatchE, obs ≠ [] ∧ ∀ o ∈ obs, o.length = num_obs sampleModel)) ∧
    (∀ stats ∈ e_step sampleModel sampleBatchE,
      (suff_stats_event_shape sampleModel).marginal_loglik = [] ∧
      hasShape1 stats.initial_probs (suff_stats_event_shape sampleModel).initial_probs ∧
      hasShape2 stats.trans_probs (suff_stats_event_shape sampleModel).trans_probs ∧
      hasShape3 stats.sum_x (suff_stats_event_shape sampleModel).sum_x) :=
  ⟨⟨by decide, by decide, by decide, by decide⟩,
    suff_stats_event_shape_matches_e_step sampleModel (by decide) (by decide)
      (by decide) sampleBatchE (by decide)⟩

/-- C4: for every sequence in the batch, the `sum_x` field computed by
`e_step` satisfies, entrywise for every in-range state `k`, channel `d`
and class `i`: `sum_x[k][d][i]` is the sum over timesteps of the smoothed
occupancy probability of state `k` times the indicator that the observed
class on channel `d` equals `i` — and `e_step` is an independent map over
the batch, so each record depends only on its own sequence. -/
theorem e_step_sum_x_entrywise (m : CategoricalHMM) (batch : List (List (List ℕ)))
    (n k d i : ℕ) (hn : n < batch.length)
    (hk : k < ((smoothed_of m (batch.getD n [])).headD []).length)
    (hd : d < ((batch.getD n []).headD []).length)
    (hi : i < num_classes m) :
    e_step m batch = batch.map (single_e_step m) ∧
    ((((e_step m batch).getD n
          { marginal_loglik := 0, initial_probs := [], trans_probs := [], sum_x := [] }).sum_x.getD
        k []).getD d []).getD i 0 =
      ((List.range (batch.getD n []).length).map (fun t =>
        ((smoothed_of m (batch.getD n [])).getD t []).getD k 0 *
          (if ((batch.getD n []).getD t []).getD d 0 = i then (1 : ℚ) else 0))).sum := by
  refine ⟨rfl, ?_⟩
  rw [e_step, getD_map_lt (single_e_step m) batch _ [] hn]
  have hss : (single_e_step m (batch.getD n [])).sum_x =
      sumX (smoothed_of m (batch.getD n [])) (batch.getD n []) (num_classes m) := rfl
  rw [hss]
  simp only [sumX]
  rw [getD_range_map _ [] hk, getD_range_map _ [] hd, getD_range_map _ 0 hi,
    zipWith_sum_eq_range _ [] [] _ _ (smoothed_of_length m (batch.getD n []))]
  apply congrArg
  apply List.map_congr_left
  intro t ht
  rw [oneHot_getD hi]

/-- Witness for C4 at the spec's concrete model and a concrete batch. -/
theorem e_step_sum_x_entrywise_witness :
    (0 < sampleBatchE.length ∧
      0 < ((smoothed_of sampleModel (sampleBatchE.getD 0 [])).headD []).length ∧
      0 < ((sampleBatchE.getD 0 []).headD []).length ∧
      0 < num_classes sampleModel) ∧
    (e_step sampleModel sampleBatchE = sampleBatchE.map (single_e_step sampleModel) ∧
      ((((e_step sampleModel sampleBatchE).getD 0
            { marginal_loglik := 0, initial_probs := [], trans_probs := [], sum_x := [] }).sum_x.getD
          0 []).getD 0 []).getD 0 0 =
        ((List.range (sampleBatchE.getD 0 []).length).map (fun t =>
          ((smoothed_of sampleModel (sampleBatchE.getD 0 [])).getD t []).getD 0 0 *
            (if ((sampleBatchE.getD 0 []).getD t []).getD 0 0 = 0 then (1 : ℚ) else 0))).sum) :=
  ⟨⟨by decide, by decide, by decide, by decide⟩,
    e_step_sum_x_entrywise sampleModel sampleBatchE 0 0 0 0 (by decide) (by decide)
      (by decide) (by decide)⟩

/-- C9: for every sequence whose observations all lie in
`[0, num_classes)` (rectangular across channels) and whose smoothed
occupancy matrix is rectangular with every per-timestep row summing to 1,
the `sum_x` statistic computed by `e_step` satisfies: for each channel,
summing over all states and all classes yields exactly the sequence
length — every observation is explained exactly once in expectation. -/
theorem e_step_sum_x_explains_each_observation (m : CategoricalHMM)
    (obs : List (List ℕ)) (d : ℕ)
    (hrect : ∀ o ∈ obs, o.length = (obs.headD []).length)
    (hcls : ∀ o ∈ obs, ∀ x ∈ o, x < num_classes m)
    (hrows : ∀ r ∈ smoothed_of m obs,
      r.length = ((smoothed_of m obs).headD []).length ∧ r.sum = 1)
    (hd : d < (obs.headD []).length) :
    ((single_e_step m obs).sum_x.map (fun ks => (ks.getD d []).sum)).sum =
      (obs.length : ℚ) := by
  have hss : (single_e_step m obs).sum_x =
      sumX (smoothed_of m obs) obs (num_classes m) := rfl
  rw [hss]
  exact sumX_channel_sum _ _ _ _ (smoothed_of_length m obs) hrect hcls hrows hd

/-- Witness for C9 at the spec's concrete model and a concrete sequence. -/
theorem e_step_sum_x_explains_each_observation_witness :
    ((∀ o ∈ sampleObs, o.length = (sampleObs.headD []).length) ∧
      (∀ o ∈ sampleObs, ∀ x ∈ o, x < num_classes sampleModel) ∧
      (∀ r ∈ smoothed_of sampleModel sampleObs,
        r.length = ((smoothed_of sampleModel sampleObs).headD []).length ∧ r.sum = 1) ∧
      0 < (sampleObs.headD []).length) ∧
    ((single_e_step sampleModel sampleObs).sum_x.map (fun ks => (ks.getD 0 []).sum)).sum =
      (sampleObs.length : ℚ) :=
  ⟨⟨by decide, by decide,
      by norm_num [smoothed_of, hmm_smoother, hmm_filter, filterGo, backwardGo,
        conditional_liks, sampleModel, sampleObs, normalizeVec, vecMat, matVec,
        List.range_succ, List.zipWith],
      by decide⟩,
    e_step_sum_x_explains_each_observation sampleModel sampleObs 0 (by decide) (by decide)
      (by norm_num [smoothed_of, hmm_smoother, hmm_filter, filterGo, backwardGo,
        conditional_liks, sampleModel, sampleObs, normalizeVec, vecMat, matVec,
        List.range_succ, List.zipWith])
      (by decide)⟩

/-- C8: `random_initialization` is deterministic given the key (it is a
pure function of the key: equal keys give identical models), and the model
it returns is fully valid: the initial distribution is non-negative and
sums to 1, every transition row sums to 1, and every (state, channel)
emission slice sums to 1 along the class axis — exactly, since the
embedding computes in ℚ. -/
theorem random_initialization_valid (key nS nD nC : ℕ)
    (hS : 0 < nS) (hC : 0 < nC) :
    (∀ key2, key = key2 →
      random_initialization key nS nD nC = random_initialization key2 nS nD nC) ∧
    (random_initialization key nS nD nC).initial_probs.sum = 1 ∧
    (∀ x ∈ (random_initialization key nS nD nC).initial_probs, 0 ≤ x) ∧
    (∀ row ∈ (random_initialization key nS nD nC).transition_matrix, row.sum = 1) ∧
    (∀ st ∈ (random_initialization key nS nD nC).emission_probs,
      ∀ row ∈ st, row.sum = 1) := by
  refine ⟨fun key2 h => by rw [h], dirichletSample_sum_one hS,
    dirichletSample_nonneg _ _, ?_, ?_⟩
  · intro row hrow
    rw [show (random_initialization key nS nD nC).transition_matrix =
      (List.range nS).map (fun r => dirichletSample (mix (mix key 1) r) nS) from rfl,
      List.mem_map] at hrow
    obtain ⟨r, _, rfl⟩ := hrow
    exact dirichletSample_sum_one hS
  · intro st hst row hrow
    rw [show (random_initialization key nS nD nC).emission_probs =
      (List.range nS).map (fun s => (List.range nD).map
        (fun d => dirichletSample (mix (mix key 2) (s * nD + d)) nC)) from rfl,
      List.mem_map] at hst
    obtain ⟨s, _, rfl⟩ := hst
    rw [List.mem_map] at hrow
    obtain ⟨d, _, rfl⟩ := hrow
    exact dirichletSample_sum_one hC

/-- Witness for C8 at a concrete key and concrete positive dimensions. -/
theorem random_initialization_valid_witness :
    (0 < 2 ∧ 0 < 3) ∧
    (random_initialization 7 2 1 3).initial_probs.sum = 1 :=
  ⟨⟨by decide, by decide⟩,
    (random_initialization_valid 7 2 1 3 (by decide) (by decide)).2.1⟩

end CategoricalHMMSpec
